import Mathlib

/-! # Perceptual hash (pHash) pipeline of `main.go`

A shallow embedding of the hashing core of `main.go`:

* `imageToGrayMatrix` : luma extraction,
* `applyDCT` (with its local closure `dct1D`) : separable DCT-II,
* `calculateMean` and the hash assembly of `ComputePHash`,
* `phash` : the textual rendering of the hash.

Go slices are lists; an index out of range (a run-time panic in Go) is `none`.
The definitions are written over any carrier `α` that has the operations the code
uses (`0`, `+`, `*`, `/`, `<`, conversion from `int`, decimal literals), so they do
not fix an arithmetic; `math.Cos`, `math.Sqrt` and `math.Pi` are parameters `cos`,
`sqrt`, `pi`.  Each theorem names its carrier: an ordered field, or `ℝ` with
`Real.cos`, `Real.sqrt`, `Real.pi`, for exact arithmetic; `F64`, the IEEE 754
binary64 values with correctly rounded `+` and `/`, for `float64`.  `uint64` is
`Nat` reduced modulo `2 ^ 64`.
-/

namespace PHash

/-! ## Go slices -/

/-- Allocation `make([]T, len)`: `len` copies of the zero value `zero`; a negative
length is a run-time panic. -/
def make {β : Type} (len : Int) (zero : β) : Option (List β) :=
  if 0 ≤ len then some (List.replicate len.toNat zero) else none

/-- Store `s[i] = v` with an `int` index: a panic unless `0 ≤ i < len(s)`. -/
def setIdx {β : Type} (s : List β) (i : Int) (v : β) : Option (List β) :=
  if 0 ≤ i ∧ i < (s.length : Int) then some (s.set i.toNat v) else none

/-- The values `lo, lo+1, ..., hi-1` of a loop `for x := lo; x < hi; x++`. -/
def loopRange (lo hi : Int) : List Int :=
  (List.range (hi - lo).toNat).map fun k : Nat => lo + (k : Int)

/-! ## Images (`image.Image`) -/

/-- Result of `color.Color.RGBA()`: four `uint32` channel values. -/
structure Color where
  r : Nat
  g : Nat
  b : Nat
  a : Nat

/-- An `image.Rectangle` with corners `Min` and `Max`. -/
structure Rectangle where
  minX : Int
  minY : Int
  maxX : Int
  maxY : Int

/-- Width `Max.X - Min.X` of a rectangle. -/
def Rectangle.Dx (r : Rectangle) : Int := r.maxX - r.minX

/-- Height `Max.Y - Min.Y` of a rectangle. -/
def Rectangle.Dy (r : Rectangle) : Int := r.maxY - r.minY

/-- An `image.Image`: its bounds and the `RGBA()` value of `At(x, y)`. -/
structure Image where
  bounds : Rectangle
  At : Int → Int → Color

section Numeric

variable {α : Type} [Zero α] [Add α] [Mul α] [Div α] [NatCast α] [OfScientific α] [LT α]
  [DecidableRel (fun a b : α => a < b)]

/-! ## `imageToGrayMatrix` -/

/-- The luma expression
`0.299*float64(r>>8) + 0.587*float64(g>>8) + 0.114*float64(b>>8)`. -/
def luma (c : Color) : α :=
  (0.299 : α) * ((c.r >>> 8 : Nat) : α) + (0.587 : α) * ((c.g >>> 8 : Nat) : α)
    + (0.114 : α) * ((c.b >>> 8 : Nat) : α)

/-- Body of the outer loop of `imageToGrayMatrix` up to the store into `matrix`:
allocate `row` of length `bounds.Dx()` and run `row[x] = luma` for
`x` from `bounds.Min.X` to `bounds.Max.X`. -/
def grayRow (img : Image) (y : Int) : Option (List α) := do
  let row ← make img.bounds.Dx (0 : α)
  (loopRange img.bounds.minX img.bounds.maxX).foldlM
    (fun row x => setIdx row x (luma (img.At x y))) row

/-- The function `imageToGrayMatrix`: allocate `bounds.Dy()` rows and run
`matrix[y] = row` for `y` from `bounds.Min.Y` to `bounds.Max.Y`. -/
def imageToGrayMatrix (img : Image) : Option (List (List α)) := do
  let matrix ← make img.bounds.Dy ([] : List α)
  (loopRange img.bounds.minY img.bounds.maxY).foldlM
    (fun matrix y => do
      let row ← grayRow img y
      setIdx matrix y row) matrix

/-! ## `applyDCT` -/

/-- Inner loop of `dct1D`, started at index `i` with accumulator `sum`:
`sum += val * math.Cos(math.Pi*(float64(i)+0.5)*float64(k)/n)`. -/
def dctSum (cos : α → α) (pi n : α) (k : Nat) : Nat → List α → α → α
  | _, [], sum => sum
  | i, val :: rest, sum =>
      dctSum cos pi n k (i + 1) rest (sum + val * cos (pi * ((i : α) + 0.5) * (k : α) / n))

/-- The closure `dct1D` of `applyDCT`. -/
def dct1D (cos sqrt : α → α) (pi : α) (input : List α) : List α :=
  let n : α := (input.length : α)
  (List.range input.length).map fun k =>
    let sum := dctSum cos pi n k 0 input 0
    if k = 0 then sum * sqrt (1.0 / n) else sum * sqrt (2.0 / n)

/-- Loop `column[y] = dct[y][x]` over all rows `y` of `dct`. -/
def getColumn : List (List α) → Nat → Option (List α)
  | [], _ => some []
  | row :: rows, x => do
      let v ← row[x]?
      let vs ← getColumn rows x
      pure (v :: vs)

/-- Loop `dct[y][x] = transformed[y]` over all rows `y` of `dct`. -/
def setColumn (x : Nat) : List (List α) → List α → Option (List (List α))
  | [], _ => some []
  | _ :: _, [] => none
  | row :: rows, t :: ts => do
      let row2 ← setIdx row (x : Int) t
      let rows2 ← setColumn x rows ts
      pure (row2 :: rows2)

/-- The function `applyDCT`: `dct1D` on every row, then on every column. -/
def applyDCT (cos sqrt : α → α) (pi : α) (matrix : List (List α)) : Option (List (List α)) :=
  let size := matrix.length
  let dct := matrix.map (dct1D cos sqrt pi)
  (List.range size).foldlM
    (fun dct x => do
      let column ← getColumn dct x
      let transformed := dct1D cos sqrt pi column
      setColumn x dct transformed) dct

/-! ## `calculateMean` and the hash assembly of `ComputePHash` -/

/-- The function `calculateMean`. -/
def calculateMean (data : List α) : α :=
  data.foldl (fun sum v => sum + v) 0 / (data.length : α)

/-- One pass through the body of the double loop filling `lowFreq`; the state is
the buffer `lowFreq` and the counter `index`. -/
def lowFreqStep (dctMatrix : List (List α)) (st : List α × Nat) (i j : Nat) :
    Option (List α × Nat) :=
  if i = 0 ∧ j = 0 then some st
  else do
    let row ← dctMatrix[i]?
    let v ← row[j]?
    let buf ← setIdx st.1 (st.2 : Int) v
    pure (buf, st.2 + 1)

/-- Step 4 of `ComputePHash`: fill a 64-slot buffer from the top-left 8x8 block,
skipping `(0,0)`, then reslice it to `lowFreq[:63]`. -/
def collectLowFreq (dctMatrix : List (List α)) : Option (List α) := do
  let st ← (List.range 8).foldlM
    (fun st i => (List.range 8).foldlM (fun st j => lowFreqStep dctMatrix st i j) st)
    (List.replicate 64 (0 : α), 0)
  pure (st.1.take 63)

/-- Step 6 of `ComputePHash` from index `i` on, with `hash` the accumulator:
`if val > mean { hash |= 1 << uint(63-i) }` on a `uint64`. -/
def hashLoop (mean : α) : Nat → List α → Nat → Nat
  | _, [], hash => hash
  | i, val :: rest, hash =>
      hashLoop mean (i + 1) rest
        (if val > mean then (hash ||| (1 <<< (63 - i))) % 2 ^ 64 else hash)

/-- Steps 4 to 6 of `ComputePHash`: the hash assembled from the DCT matrix. -/
def hashOfDCT (dctMatrix : List (List α)) : Option Nat := do
  let lowFreq ← collectLowFreq dctMatrix
  let mean := calculateMean lowFreq
  pure (hashLoop mean 0 lowFreq 0)

/-- The collaborators from package `imaging` that the program calls. -/
structure Imaging where
  Decode : List Nat → Option Image
  Resize32 : Image → Image
  Grayscale : Image → Image

/-- The function `ComputePHash`. -/
def ComputePHash (cos sqrt : α → α) (pi : α) (im : Imaging) (img : Image) : Option Nat := do
  let resized := im.Resize32 img
  let gray := im.Grayscale resized
  let grayMatrix ← imageToGrayMatrix gray
  let dctMatrix ← applyDCT cos sqrt pi grayMatrix
  hashOfDCT dctMatrix

end Numeric

/-! ## `phash`: rendering the hash -/

/-- Conversion `int64(u)` of a `uint64`. -/
def toInt64 (u : Nat) : Int :=
  if u % 2 ^ 64 < 2 ^ 63 then ((u % 2 ^ 64 : Nat) : Int) else ((u % 2 ^ 64 : Nat) : Int) - 2 ^ 64

/-- Library function `strconv.FormatInt(i, 16)`: a minus sign for a negative value,
then the magnitude in lower-case base 16, no padding. -/
def formatInt16 (i : Int) : List Char :=
  if i < 0 then '-' :: Nat.toDigits 16 i.natAbs else Nat.toDigits 16 i.toNat

/-- The `%016x` rendering of a `uint64`: lower-case base 16, padded with zeros on
the left to at least 16 digits. -/
def fmt016x (u : Nat) : List Char :=
  let ds := Nat.toDigits 16 (u % 2 ^ 64)
  List.replicate (16 - ds.length) '0' ++ ds

/-- The function `phash`: the returned string (decode and hash failures panic). -/
def phash {α : Type} [Zero α] [Add α] [Mul α] [Div α] [NatCast α] [OfScientific α] [LT α]
    [DecidableRel (fun a b : α => a < b)] (cos sqrt : α → α) (pi : α) (im : Imaging)
    (imgCont : List Nat) : Option (List Char) := do
  let img ← im.Decode imgCont
  let phashValue ← ComputePHash cos sqrt pi im img
  pure (formatInt16 (toInt64 phashValue))

/-! ## Specification-side definitions and sample inputs -/

section SpecDefs

variable {α : Type}

/-- The `N x N` matrix with entry `F y x` in row `y`, column `x`. -/
def matOf (N : Nat) (F : Nat → Nat → α) : List (List α) :=
  (List.range N).map fun y => (List.range N).map fun x => F y x

/-- Entry `m[y][x]` of a matrix, `0` outside it. -/
def entry [Zero α] (m : List (List α)) (y x : Nat) : α := (m.getD y []).getD x 0

/-- A matrix of `N` rows with `N` entries each. -/
def IsSquare (N : Nat) (m : List (List α)) : Prop :=
  m.length = N ∧ ∀ row ∈ m, row.length = N

/-- Closed form of output `k` of `dct1D` on the sequence `f 0, ..., f (n-1)`. -/
def coef [LinearOrderedField α] (cos sqrt : α → α) (pi : α) (n : Nat) (f : Nat → α)
    (k : Nat) : α :=
  (∑ i in Finset.range n, f i * cos (pi * ((i : α) + 0.5) * (k : α) / (n : α)))
    * (if k = 0 then sqrt (1.0 / (n : α)) else sqrt (2.0 / (n : α)))

/-- The matrix has at least an 8x8 top-left block. -/
def HasBlock8 (m : List (List α)) : Prop :=
  8 ≤ m.length ∧ ∀ i, i < 8 → 8 ≤ (m.getD i []).length

/-- A position other than `(0,0)`, the DC term. -/
def isAC (p : Nat × Nat) : Bool := !(p.1 == 0 && p.2 == 0)

/-- Positions `(r,c)` with `r,c` in `[0,8)` in row-major order, `(0,0)` skipped. -/
def lowFreqPositions : List (Nat × Nat) :=
  ((List.range 8).flatMap fun r => (List.range 8).map fun c => (r, c)).filter isAC

/-- The low-frequency vector as the specification words it: the coefficients at
`lowFreqPositions`, in that order. -/
def lowFreqSpec [Zero α] (m : List (List α)) : List α :=
  lowFreqPositions.map fun p => entry m p.1 p.2

/-- The all-black 32x32 image anchored at the origin (every pixel black, alpha 65535). -/
def blackImage : Image :=
  { bounds := { minX := 0, minY := 0, maxX := 32, maxY := 32 },
    At := fun _ _ => { r := 0, g := 0, b := 0, a := 65535 } }

/-- A 1x1 image whose bounds are `(1,0)-(2,1)`, holding one white pixel. -/
def offsetImage : Image :=
  { bounds := { minX := 1, minY := 0, maxX := 2, maxY := 1 },
    At := fun _ _ => { r := 65535, g := 65535, b := 65535, a := 65535 } }

/-- Collaborators that decode every input to `blackImage` and leave an image as it
is: the behaviour of `imaging` on an image that is already 32x32 and gray. -/
def blackImaging : Imaging :=
  { Decode := fun _ => some blackImage, Resize32 := fun img => img, Grayscale := fun img => img }

/-- The 32x32 luma matrix that is zero except for `luma[0][0] = 255`. -/
def brightPixel [LinearOrderedField α] : List (List α) :=
  matOf 32 fun y x => if y = 0 ∧ x = 0 then 255 else 0

end SpecDefs

/-! ## `float64`: IEEE 754 binary64 with rounding to nearest, ties to even -/

/-- A `float64` value: the finite number `(-1)^neg * m * 2^e`, an infinity, or NaN.
Finite values are kept canonical: `m < 2^53`, `-1074 ≤ e ≤ 971`, and `2^52 ≤ m`
unless `e = -1074`. -/
inductive F64 where
  | finite (neg : Bool) (m : Nat) (e : Int)
  | inf (neg : Bool)
  | nan
deriving DecidableEq

namespace F64

/-- Number of binary digits of `n`, found by halving at most `fuel` times. -/
def bitLenAux : Nat → Nat → Nat
  | 0, _ => 0
  | fuel + 1, n => if n = 0 then 0 else bitLenAux fuel (n / 2) + 1

/-- Number of binary digits of `n` (`0` for `n = 0`), so `2^(bitLen n - 1) ≤ n < 2^(bitLen n)`
for `n > 0`. -/
def bitLen (n : Nat) : Nat := bitLenAux n n

/-- The pair `(N, D)` with `num / den = (N / D) * 2^e` (`n <<< k` is `n * 2^k`). -/
def scale (num den : Nat) (e : Int) : Nat × Nat :=
  if e < 0 then (num <<< (-e).toNat, den) else (num, den <<< e.toNat)

/-- IEEE 754 rounding to nearest, ties to even, of the rational `num / den` (`den > 0`)
with sign `neg` to binary64: 53-bit significand, least exponent `-1074`, overflow to
infinity. -/
def round (neg : Bool) (num den : Nat) : F64 :=
  if num = 0 then finite neg 0 (-1074)
  else
    let k : Int := (bitLen num : Int) - (bitLen den : Int)
    let e0 : Int := k - 52
    let e1 : Int := if (scale num den e0).1 / (scale num den e0).2 < 2 ^ 52 then e0 - 1 else e0
    let e : Int := max e1 (-1074)
    let q := (scale num den e).1 / (scale num den e).2
    let r := (scale num den e).1 % (scale num den e).2
    let m := if 2 * r > (scale num den e).2 ∨ (2 * r = (scale num den e).2 ∧ q % 2 = 1)
      then q + 1 else q
    let m2 := if m = 2 ^ 53 then 2 ^ 52 else m
    let e2 := if m = 2 ^ 53 then e + 1 else e
    if e2 > 971 then inf neg else finite neg m2 e2

/-- The integer `(-1)^neg * m * 2^(e - e0)` for `e0 ≤ e`. -/
def signedAt (neg : Bool) (m : Nat) (e e0 : Int) : Int :=
  if neg then -((m <<< (e - e0).toNat : Nat) : Int) else ((m <<< (e - e0).toNat : Nat) : Int)

/-- IEEE 754 addition. -/
def add : F64 → F64 → F64
  | nan, _ => nan
  | _, nan => nan
  | inf a, inf b => if a = b then inf a else nan
  | inf a, finite _ _ _ => inf a
  | finite _ _ _, inf b => inf b
  | finite na ma ea, finite nb mb eb =>
      let e := min ea eb
      let s := signedAt na ma ea e + signedAt nb mb eb e
      if s = 0 then finite (na && nb) 0 (-1074)
      else if e < 0 then round (decide (s < 0)) s.natAbs (1 <<< (-e).toNat)
      else round (decide (s < 0)) (s.natAbs <<< e.toNat) 1

/-- IEEE 754 division. -/
def div : F64 → F64 → F64
  | nan, _ => nan
  | _, nan => nan
  | inf _, inf _ => nan
  | inf a, finite nb _ _ => inf (xor a nb)
  | finite na _ _, inf b => finite (xor na b) 0 (-1074)
  | finite na ma ea, finite nb mb eb =>
      if mb = 0 then (if ma = 0 then nan else inf (xor na nb))
      else if eb ≤ ea then round (xor na nb) (ma <<< (ea - eb).toNat) mb
      else round (xor na nb) ma (mb <<< (eb - ea).toNat)

/-- IEEE 754 comparison `a < b` (false when either side is NaN; `-0 = +0`). -/
def lt : F64 → F64 → Bool
  | nan, _ => false
  | _, nan => false
  | inf a, inf b => a && !b
  | inf a, finite _ _ _ => a
  | finite _ _ _, inf b => !b
  | finite na ma ea, finite nb mb eb =>
      decide (signedAt na ma ea (min ea eb) < signedAt nb mb eb (min ea eb))

instance : Zero F64 := ⟨finite false 0 (-1074)⟩
instance : Add F64 := ⟨add⟩
instance : Div F64 := ⟨div⟩
instance : NatCast F64 := ⟨fun n => round false n 1⟩
instance : LT F64 := ⟨fun a b => lt a b = true⟩
instance : DecidableRel (fun a b : F64 => a < b) := fun a b => inferInstanceAs (Decidable (lt a b = true))

end F64

/-- The value of a finite float64 as a rational number (`0` for infinities and NaN). -/
def F64.toRat : F64 → ℚ
  | F64.finite neg m e => (if neg then -1 else 1) * (m : ℚ) * (2 : ℚ) ^ e
  | F64.inf _ => 0
  | F64.nan => 0

/-- The float64 literal `0.1`: the binary64 value nearest to `1/10`. -/
def tenth : F64 := F64.round false 1 10

/-- An 8x8 matrix of float64 values with every entry `0.1`. -/
def tenthBlock : List (List F64) := List.replicate 8 (List.replicate 8 tenth)


/-! ## Theorems -/

section Aux
variable {α : Type} [LinearOrderedField α]

theorem dctSum_append (cos : α → α) (pi n : α) (k : Nat) (xs ys : List α) (i : Nat) (s : α) :
    dctSum cos pi n k i (xs ++ ys) s
      = dctSum cos pi n k (i + xs.length) ys (dctSum cos pi n k i xs s) := by
  induction xs generalizing i s with
  | nil => simp [dctSum]
  | cons x xs ih =>
    show dctSum cos pi n k (i + 1) (xs ++ ys) _ = dctSum cos pi n k (i + (xs.length + 1)) ys _
    rw [ih]
    congr 1
    omega

theorem dctSum_range (cos : α → α) (pi n : α) (k : Nat) (f : Nat → α) (m : Nat) :
    dctSum cos pi n k 0 ((List.range m).map f) 0
      = ∑ i in Finset.range m, f i * cos (pi * ((i : α) + 0.5) * (k : α) / n) := by
  induction m with
  | zero => simp [dctSum]
  | succ m ih =>
    rw [List.range_succ, List.map_append, dctSum_append, ih, Finset.sum_range_succ]
    simp [dctSum]

theorem dct1D_range (cos sqrt : α → α) (pi : α) (n : Nat) (f : Nat → α) :
    dct1D cos sqrt pi ((List.range n).map f) = (List.range n).map (coef cos sqrt pi n f) := by
  unfold dct1D coef
  simp only [List.length_map, List.length_range]
  apply List.map_congr_left
  intro k _
  rw [dctSum_range]
  split_ifs <;> rfl

omit [LinearOrderedField α] in
theorem getColumn_map {ι : Type} (l : List ι) (rowF : ι → List α) (x : Nat) (g : ι → α)
    (h : ∀ a ∈ l, (rowF a)[x]? = some (g a)) :
    getColumn (l.map rowF) x = some (l.map g) := by
  induction l with
  | nil => simp [getColumn]
  | cons a l ih =>
    have h1 := h a (List.mem_cons_self _ _)
    have h2 := ih (fun b hb => h b (List.mem_cons_of_mem _ hb))
    simp [getColumn, h1, h2]

omit [LinearOrderedField α] in
theorem setColumn_map {ι : Type} (l : List ι) (rowF : ι → List α) (x : Nat) (t : ι → α)
    (h : ∀ a ∈ l, x < (rowF a).length) :
    setColumn x (l.map rowF) (l.map t) = some (l.map fun a => (rowF a).set x (t a)) := by
  induction l with
  | nil => simp [setColumn]
  | cons a l ih =>
    have h1 := h a (List.mem_cons_self _ _)
    have h2 := ih (fun b hb => h b (List.mem_cons_of_mem _ hb))
    simp [setColumn, setIdx, h1, h2]

omit [LinearOrderedField α] in
theorem list_set_range {β : Type} (N : Nat) (f : Nat → β) (x : Nat) (v : β) :
    ((List.range N).map f).set x v = (List.range N).map fun j => if j = x then v else f j := by
  apply List.ext_getElem
  · simp
  · intro j h1 h2
    rw [List.getElem_set, List.getElem_map, List.getElem_map, List.getElem_range]
    by_cases h : x = j
    · rw [if_pos h, if_pos h.symm]
    · rw [if_neg h, if_neg (fun e => h e.symm)]

omit [LinearOrderedField α] in
theorem matOf_congr (N : Nat) (F G : Nat → Nat → α)
    (h : ∀ y, y < N → ∀ x, x < N → F y x = G y x) : matOf N F = matOf N G := by
  unfold matOf
  apply List.map_congr_left
  intro y hy
  apply List.map_congr_left
  intro x hx
  exact h y (List.mem_range.mp hy) x (List.mem_range.mp hx)

omit [LinearOrderedField α] in
theorem getColumn_matOf (N : Nat) (F : Nat → Nat → α) (x : Nat) (hx : x < N) :
    getColumn (matOf N F) x = some ((List.range N).map fun y => F y x) := by
  unfold matOf
  apply getColumn_map
  intro a _
  simp [hx]

omit [LinearOrderedField α] in
theorem setColumn_matOf (N : Nat) (F : Nat → Nat → α) (x : Nat) (hx : x < N) (t : Nat → α) :
    setColumn x (matOf N F) ((List.range N).map t)
      = some (matOf N fun y j => if j = x then t y else F y j) := by
  unfold matOf
  rw [setColumn_map]
  · congr 1
    apply List.map_congr_left
    intro y _
    exact list_set_range N (F y) x (t y)
  · intro a _
    simpa using hx

theorem map_dct1D_matOf (cos sqrt : α → α) (pi : α) (N : Nat) (F : Nat → Nat → α) :
    (matOf N F).map (dct1D cos sqrt pi) = matOf N fun y x => coef cos sqrt pi N (F y) x := by
  unfold matOf
  rw [List.map_map]
  apply List.map_congr_left
  intro y _
  exact dct1D_range cos sqrt pi N (F y)

/-- The column pass of `applyDCT` after its first `k` columns. -/
theorem columnPass_matOf (cos sqrt : α → α) (pi : α) (N : Nat) (F : Nat → Nat → α)
    (k : Nat) (hk : k ≤ N) :
    (List.range k).foldlM
      (fun dct x => do
        let column ← getColumn dct x
        let transformed := dct1D cos sqrt pi column
        setColumn x dct transformed) (matOf N F)
      = some (matOf N fun y x =>
          if x < k then coef cos sqrt pi N (fun i => F i x) y else F y x) := by
  induction k with
  | zero => simp
  | succ k ih =>
    rw [List.range_succ, List.foldlM_append, ih (by omega)]
    simp only [Option.some_bind, List.foldlM_cons, List.foldlM_nil, Option.bind_eq_bind]
    rw [getColumn_matOf _ _ _ (by omega)]
    simp only [Option.some_bind, lt_self_iff_false, if_false]
    rw [dct1D_range, setColumn_matOf _ _ _ (by omega)]
    simp only [Option.bind_some, Option.pure_def]
    congr 1
    apply matOf_congr
    intro y _ x _
    by_cases h1 : x = k
    · subst h1; simp
    · by_cases h2 : x < k
      · simp [h1, h2, Nat.lt_succ_of_lt h2]
      · have : ¬ x < k + 1 := by omega
        simp [h1, h2, this]

/-- Closed form of `applyDCT` on a square matrix: the result exists and its entry
`[y][x]` is the column transform of the row transforms. -/
theorem applyDCT_matOf (cos sqrt : α → α) (pi : α) (N : Nat) (F : Nat → Nat → α) :
    applyDCT cos sqrt pi (matOf N F)
      = some (matOf N fun y x =>
          coef cos sqrt pi N (fun i => coef cos sqrt pi N (F i) x) y) := by
  unfold applyDCT
  simp only
  rw [map_dct1D_matOf]
  have hlen : (matOf N F).length = N := by simp [matOf]
  rw [hlen, columnPass_matOf cos sqrt pi N _ N le_rfl]
  congr 1
  apply matOf_congr
  intro y _ x hx
  simp [hx]

theorem IsSquare.eq_matOf {N : Nat} {m : List (List α)} (h : IsSquare N m) :
    m = matOf N (entry m) := by
  obtain ⟨h1, h2⟩ := h
  apply List.ext_getElem
  · simp [matOf, h1]
  · intro y hy1 hy2
    have hrow : (m[y]).length = N := h2 _ (List.getElem_mem _)
    apply List.ext_getElem
    · simp [matOf, hrow]
    · intro x hx1 hx2
      simp [matOf, entry, List.getD_eq_getElem?_getD, List.getElem?_eq_getElem hy1,
        List.getElem?_eq_getElem hx1]

end Aux

section Hash
variable {α : Type} [Zero α]

theorem lowFreqStep_ok (m : List (List α)) (h : HasBlock8 m) (i j : Nat) (hi : i < 8)
    (hj : j < 8) (hij : ¬ (i = 0 ∧ j = 0)) (buf : List α) (idx : Nat) (hidx : idx < buf.length) :
    lowFreqStep m (buf, idx) i j = some (buf.set idx (entry m i j), idx + 1) := by
  obtain ⟨h1, h2⟩ := h
  have hi2 : i < m.length := by omega
  have hrow := h2 i hi
  rw [List.getD_eq_getElem?_getD, List.getElem?_eq_getElem hi2] at hrow
  simp only [Option.getD_some] at hrow
  have hj2 : j < (m[i]).length := by omega
  simp [lowFreqStep, hij, setIdx, hidx, entry, List.getD_eq_getElem?_getD,
    List.getElem?_eq_getElem hi2, List.getElem?_eq_getElem hj2]

theorem foldlM_flatMap {σ ι κ : Type} (f : σ → κ → Option σ) (g : ι → List κ) (l : List ι)
    (s : σ) :
    (l.flatMap g).foldlM f s = l.foldlM (fun st a => (g a).foldlM f st) s := by
  induction l generalizing s with
  | nil => simp
  | cons a l ih =>
    rw [List.flatMap_cons, List.foldlM_append, List.foldlM_cons]
    cases h : (g a).foldlM f s with
    | none => simp
    | some s2 => simp [ih]

theorem set_fill {β : Type} (buf : List β) (idx : Nat) (v : β) (vs : List β)
    (h : idx < buf.length) :
    (buf.set idx v).take (idx + 1) ++ vs ++ (buf.set idx v).drop (idx + 1 + vs.length)
      = buf.take idx ++ (v :: vs) ++ buf.drop (idx + (vs.length + 1)) := by
  rw [List.drop_set_of_lt _ _ (by omega)]
  have h1 : (buf.set idx v).take (idx + 1) = buf.take idx ++ [v] := by
    rw [List.set_eq_take_append_cons_drop, if_pos h, List.take_append_eq_append_take]
    simp [List.length_take, Nat.min_eq_left (Nat.le_of_lt h)]
  rw [h1]
  simp [Nat.add_comm, Nat.add_left_comm]

/-- The state of the fill loop after a list of positions inside the 8x8 block. -/
theorem fill_positions (m : List (List α)) (h : HasBlock8 m) (ps : List (Nat × Nat))
    (hps : ∀ p ∈ ps, p.1 < 8 ∧ p.2 < 8) (buf : List α) (idx : Nat)
    (hfit : idx + (ps.filter isAC).length ≤ buf.length) :
    ps.foldlM (fun st p => lowFreqStep m st p.1 p.2) (buf, idx)
      = some (buf.take idx
            ++ (ps.filter isAC).map (fun p => entry m p.1 p.2)
            ++ buf.drop (idx + (ps.filter isAC).length),
          idx + (ps.filter isAC).length) := by
  induction ps generalizing buf idx with
  | nil => simp
  | cons p ps ih =>
    have hp := hps p (List.mem_cons_self _ _)
    have hps2 : ∀ q ∈ ps, q.1 < 8 ∧ q.2 < 8 := fun q hq => hps q (List.mem_cons_of_mem _ hq)
    by_cases h0 : p.1 = 0 ∧ p.2 = 0
    · have hf : isAC p = false := by simp [isAC, h0.1, h0.2]
      simp only [List.filter_cons, hf, Bool.false_eq_true, if_false] at hfit ⊢
      rw [List.foldlM_cons]
      have : lowFreqStep m (buf, idx) p.1 p.2 = some (buf, idx) := by simp [lowFreqStep, h0]
      rw [this]
      exact ih hps2 buf idx hfit
    · have hf : isAC p = true := by
        simp only [isAC, Bool.not_eq_true', Bool.and_eq_false_imp, beq_iff_eq,
          beq_eq_false_iff_ne]
        intro a b; exact h0 ⟨a, b⟩
      simp only [List.filter_cons, hf, if_true, List.length_cons] at hfit ⊢
      rw [List.foldlM_cons, lowFreqStep_ok m h p.1 p.2 hp.1 hp.2 h0 buf idx (by omega)]
      simp only [Option.bind_eq_bind, Option.some_bind]
      rw [ih hps2 (buf.set idx (entry m p.1 p.2)) (idx + 1) (by simp; omega)]
      simp only [List.map_cons, List.length_cons, List.length_map]
      congr 1
      rw [Prod.mk.injEq]
      constructor
      · have := set_fill buf idx (entry m p.1 p.2)
          ((ps.filter isAC).map (fun p => entry m p.1 p.2)) (by omega)
        simpa using this
      · omega

theorem lowFreqSpec_length (m : List (List α)) : (lowFreqSpec m).length = 63 := by
  unfold lowFreqSpec
  rw [List.length_map]
  decide

/-- The buffer filled by the double loop and resliced to 63 entries is the
low-frequency vector of the specification. -/
theorem collectLowFreq_eq (m : List (List α)) (h : HasBlock8 m) :
    collectLowFreq m = some (lowFreqSpec m) := by
  have hflat := foldlM_flatMap (fun (st : List α × Nat) (p : Nat × Nat) => lowFreqStep m st p.1 p.2)
    (fun r => (List.range 8).map fun c => (r, c)) (List.range 8) (List.replicate 64 (0 : α), 0)
  have hinner : ∀ (st : List α × Nat) (i : Nat),
      ((List.range 8).map fun c => (i, c)).foldlM (fun st p => lowFreqStep m st p.1 p.2) st
        = (List.range 8).foldlM (fun st j => lowFreqStep m st i j) st := by
    intro st i
    generalize List.range 8 = l
    induction l generalizing st with
    | nil => simp
    | cons a l ih => simp [List.foldlM_cons, ih]
  simp only [hinner] at hflat
  have hlen : ((((List.range 8).flatMap fun r => (List.range 8).map fun c => (r, c))).filter
      isAC).length = 63 := by decide
  have hfill := fill_positions m h ((List.range 8).flatMap fun r => (List.range 8).map fun c => (r, c))
    (by
      intro p hp
      simp only [List.mem_flatMap, List.mem_map, List.mem_range] at hp
      obtain ⟨r, hr, c, hc, rfl⟩ := hp
      exact ⟨hr, hc⟩)
    (List.replicate 64 (0 : α)) 0 (by rw [hlen]; simp)
  unfold collectLowFreq
  rw [← hflat, hfill]
  simp only [Option.pure_def, Option.bind_eq_bind, Option.some_bind, List.take_zero,
    List.nil_append, hlen]
  have hl : (lowFreqSpec m).length = 63 := lowFreqSpec_length m
  show some (List.take 63 (lowFreqSpec m ++ _)) = some (lowFreqSpec m)
  rw [List.take_append_of_le_length (by omega), List.take_of_length_le (by omega)]

end Hash

section HashBits
variable {α : Type}

theorem foldl_add_eq_sum [LinearOrderedField α] (l : List α) (a : α) :
    l.foldl (fun sum v => sum + v) a = a + l.sum := by
  induction l generalizing a with
  | nil => simp
  | cons x l ih => rw [List.foldl_cons, ih, List.sum_cons, add_assoc]

theorem calculateMean_eq [LinearOrderedField α] (l : List α) : calculateMean l = l.sum / (l.length : α) := by
  unfold calculateMean
  rw [foldl_add_eq_sum, zero_add]

omit α in
theorem hashStep_testBit (h i b : Nat) (hi : i ≤ 63) (hb : b < 64) :
    ((h ||| (1 <<< (63 - i))) % 2 ^ 64).testBit b = (h.testBit b || decide (b + i = 63)) := by
  rw [Nat.testBit_mod_two_pow, Nat.testBit_or, Nat.one_shiftLeft, Nat.testBit_two_pow]
  have e : (63 - i = b) ↔ (b + i = 63) := by omega
  simp [hb, e]

/-- Bit `b` of the hash after the bit loop has run over `vs` from index `i`. -/
theorem hashLoop_testBit [Zero α] [LT α] [DecidableRel (fun a b : α => a < b)] (mean : α) (vs : List α) (i h b : Nat) (hi : i + vs.length ≤ 64)
    (hb : b < 64) :
    (hashLoop mean i vs h).testBit b
      = (h.testBit b ||
          (decide (b + i ≤ 63 ∧ 63 < b + i + vs.length)
            && decide (vs.getD (63 - i - b) 0 > mean))) := by
  induction vs generalizing i h with
  | nil =>
    have : ¬ (b + i ≤ 63 ∧ 63 < b + i + 0) := by omega
    simp [hashLoop]
  | cons v vs ih =>
    simp only [List.length_cons] at hi
    unfold hashLoop
    rw [ih (i + 1) _ (by omega)]
    rcases lt_trichotomy (b + i) 63 with hlt | heq | hgt
    · have e1 : (b + (i + 1) ≤ 63 ∧ 63 < b + (i + 1) + vs.length)
          ↔ (b + i ≤ 63 ∧ 63 < b + i + (vs.length + 1)) := by omega
      have e2 : 63 - i - b = (63 - (i + 1) - b) + 1 := by omega
      have e3 : (if v > mean then (h ||| (1 <<< (63 - i))) % 2 ^ 64 else h).testBit b
          = h.testBit b := by
        split_ifs
        · rw [hashStep_testBit h i b (by omega) hb]
          have : ¬ (b + i = 63) := by omega
          simp [this]
        · rfl
      rw [e3, List.length_cons, e2, List.getD_cons_succ]
      simp only [e1]
    · have e1 : ¬ (b + (i + 1) ≤ 63 ∧ 63 < b + (i + 1) + vs.length) := by omega
      have e1b : (b + i ≤ 63 ∧ 63 < b + i + (vs.length + 1)) := by omega
      have e2 : 63 - i - b = 0 := by omega
      have e3 : (if v > mean then (h ||| (1 <<< (63 - i))) % 2 ^ 64 else h).testBit b
          = (h.testBit b || decide (v > mean)) := by
        split_ifs with hv
        · rw [hashStep_testBit h i b (by omega) hb]
          simp [heq, hv]
        · simp [hv]
      rw [e3, List.length_cons, e2, List.getD_cons_zero]
      simp [e1, e1b]
    · have e1 : ¬ (b + (i + 1) ≤ 63 ∧ 63 < b + (i + 1) + vs.length) := by omega
      have e1b : ¬ (b + i ≤ 63 ∧ 63 < b + i + (vs.length + 1)) := by omega
      have e3 : (if v > mean then (h ||| (1 <<< (63 - i))) % 2 ^ 64 else h).testBit b
          = h.testBit b := by
        split_ifs
        · rw [hashStep_testBit h i b (by omega) hb]
          have : ¬ (b + i = 63) := by omega
          simp [this]
        · rfl
      rw [e3, List.length_cons]
      simp [e1, e1b]

theorem hashLoop_lt [LT α] [DecidableRel (fun a b : α => a < b)] (mean : α) (vs : List α) (i h : Nat) (hh : h < 2 ^ 64) :
    hashLoop mean i vs h < 2 ^ 64 := by
  induction vs generalizing i h with
  | nil => simpa [hashLoop] using hh
  | cons v vs ih =>
    unfold hashLoop
    apply ih
    split_ifs
    · exact Nat.mod_lt _ (by norm_num)
    · exact hh

theorem collectLowFreq_length [Zero α] (m : List (List α)) (l : List α) (h : collectLowFreq m = some l) :
    l.length ≤ 63 := by
  unfold collectLowFreq at h
  cases hst : (List.range 8).foldlM
    (fun st i => (List.range 8).foldlM (fun st j => lowFreqStep m st i j) st)
    (List.replicate 64 (0 : α), 0) with
  | none => rw [hst] at h; simp at h
  | some st =>
    rw [hst] at h
    simp only [Option.pure_def, Option.bind_eq_bind, Option.some_bind, Option.some.injEq] at h
    rw [← h, List.length_take]
    exact Nat.min_le_left _ _

theorem hashOfDCT_bit0 [Zero α] [Add α] [Div α] [NatCast α] [LT α]
    [DecidableRel (fun a b : α => a < b)] (m : List (List α)) (h : Nat)
    (hm : hashOfDCT m = some h) :
    h.testBit 0 = false ∧ h < 2 ^ 64 := by
  unfold hashOfDCT at hm
  cases hl : collectLowFreq m with
  | none => rw [hl] at hm; simp at hm
  | some l =>
    rw [hl] at hm
    simp only [Option.pure_def, Option.bind_eq_bind, Option.some_bind, Option.some.injEq] at hm
    have hlen := collectLowFreq_length m l hl
    subst hm
    refine ⟨?_, hashLoop_lt _ _ _ _ (by norm_num)⟩
    rw [hashLoop_testBit _ _ _ _ _ (by omega) (by norm_num)]
    have : ¬ (0 + 0 ≤ 63 ∧ 63 < 0 + 0 + l.length) := by omega
    rw [decide_eq_false this]
    simp

/-- With an 8x8 block the hash assembly returns, and its result is the bit loop run
on the low-frequency vector with the mean that `calculateMean` computes. -/
theorem hashOfDCT_eq [Zero α] [Add α] [Div α] [NatCast α] [LT α]
    [DecidableRel (fun a b : α => a < b)] (m : List (List α)) (h8 : HasBlock8 m) :
    hashOfDCT m
      = some (hashLoop (calculateMean (lowFreqSpec m)) 0 (lowFreqSpec m) 0) := by
  unfold hashOfDCT
  rw [collectLowFreq_eq m h8]
  rfl

/-- Bit `63 - i` after the bit loop over the low-frequency vector, for any threshold. -/
theorem hashLoop_bit [Zero α] [LT α] [DecidableRel (fun a b : α => a < b)] (m : List (List α))
    (mean : α) (i : Nat) (hi : i < 63) :
    (hashLoop mean 0 (lowFreqSpec m) 0).testBit (63 - i)
      = decide ((lowFreqSpec m).getD i 0 > mean) := by
  rw [hashLoop_testBit _ _ _ _ _ (by rw [lowFreqSpec_length]; omega) (by omega),
    lowFreqSpec_length]
  have e1 : (63 - i + 0 ≤ 63 ∧ 63 < 63 - i + 0 + 63) := by omega
  have e2 : 63 - 0 - (63 - i) = i := by omega
  rw [e2]
  simp [e1]

theorem hashOfDCT_spec [LinearOrderedField α] (m : List (List α)) (h8 : HasBlock8 m) :
    hashOfDCT m = some (hashLoop ((lowFreqSpec m).sum / 63) 0 (lowFreqSpec m) 0) := by
  rw [hashOfDCT_eq m h8, calculateMean_eq, lowFreqSpec_length]
  norm_num

theorem hashOfDCT_testBit [LinearOrderedField α] (m : List (List α)) (i : Nat) (hi : i < 63) :
    (hashLoop ((lowFreqSpec m).sum / 63) 0 (lowFreqSpec m) 0).testBit (63 - i)
      = decide ((lowFreqSpec m).getD i 0 > (lowFreqSpec m).sum / 63) :=
  hashLoop_bit m _ i hi

end HashBits

section DCTFacts
variable {α : Type} [LinearOrderedField α]

theorem sum_map_range (f : Nat → α) (n : Nat) :
    ((List.range n).map f).sum = ∑ i in Finset.range n, f i := by
  induction n with
  | zero => simp
  | succ n ih => rw [List.sum_range_succ, Finset.sum_range_succ, ih]

theorem entry_matOf (N : Nat) (F : Nat → Nat → α) (y x : Nat) (hy : y < N) (hx : x < N) :
    entry (matOf N F) y x = F y x := by
  simp [entry, matOf, List.getD_eq_getElem?_getD, hy, hx]

omit [LinearOrderedField α] in
theorem isSquare_matOf (N : Nat) (F : Nat → Nat → α) : IsSquare N (matOf N F) := by
  constructor
  · simp [matOf]
  · intro row hrow
    simp only [matOf, List.mem_map] at hrow
    obtain ⟨y, _, rfl⟩ := hrow
    simp

omit [LinearOrderedField α] in
theorem hasBlock8_of_isSquare (N : Nat) (hN : 8 ≤ N) (m : List (List α)) (hm : IsSquare N m) :
    HasBlock8 m := by
  obtain ⟨h1, h2⟩ := hm
  refine ⟨by omega, ?_⟩
  intro i hi
  have hi2 : i < m.length := by omega
  rw [List.getD_eq_getElem?_getD, List.getElem?_eq_getElem hi2, Option.getD_some,
    h2 _ (List.getElem_mem _)]
  exact hN

theorem lowFreqSpec_congr (m m2 : List (List α))
    (h : ∀ y x, y < 8 → x < 8 → ¬ (y = 0 ∧ x = 0) → entry m2 y x = entry m y x) :
    lowFreqSpec m2 = lowFreqSpec m := by
  unfold lowFreqSpec
  apply List.map_congr_left
  intro p hp
  simp only [lowFreqPositions, List.mem_filter, List.mem_flatMap, List.mem_map,
    List.mem_range] at hp
  obtain ⟨⟨r, hr, c, hc, rfl⟩, hac⟩ := hp
  apply h r c hr hc
  rintro ⟨rfl, rfl⟩
  simp [isAC] at hac

theorem coef_zero_fun (cos sqrt : α → α) (pi : α) (n k : Nat) :
    coef cos sqrt pi n (fun _ => 0) k = 0 := by
  simp [coef]

theorem applyDCT_zero (cos sqrt : α → α) (pi : α) (N : Nat) :
    applyDCT cos sqrt pi (List.replicate N (List.replicate N (0 : α)))
      = some (List.replicate N (List.replicate N (0 : α))) := by
  have e : List.replicate N (List.replicate N (0 : α)) = matOf N (fun _ _ => 0) := by
    simp [matOf]
  rw [e, applyDCT_matOf]
  simp only [coef_zero_fun]

end DCTFacts

section RealDCT

theorem coef_real_zero (n : Nat) (f : Nat → ℝ) :
    coef Real.cos Real.sqrt Real.pi n f 0
      = (∑ i in Finset.range n, f i) * Real.sqrt (1 / (n : ℝ)) := by
  have h1 : (1.0 : ℝ) = 1 := by norm_num
  unfold coef
  simp [h1]

/-- The DCT-II basis functions of frequency `0 < k < N` sum to zero. -/
theorem sum_cos_eq_zero (N k : Nat) (hk : 0 < k) (hkN : k < N) :
    ∑ i in Finset.range N, Real.cos (Real.pi * ((i : ℝ) + 0.5) * (k : ℝ) / (N : ℝ)) = 0 := by
  have hN : (0 : ℝ) < N := by exact_mod_cast (by omega : 0 < N)
  have hk0 : (0 : ℝ) < k := by exact_mod_cast hk
  have hkN2 : (k : ℝ) < N := by exact_mod_cast hkN
  have h05 : (0.5 : ℝ) = 1 / 2 := by norm_num
  have hsin : Real.sin (Real.pi * k / N / 2) ≠ 0 := by
    apply ne_of_gt
    apply Real.sin_pos_of_pos_of_lt_pi
    · have := Real.pi_pos
      positivity
    · have hpi := Real.pi_pos
      rw [div_div, div_lt_iff₀ (by positivity)]
      nlinarith
  have hterm : ∀ i : Nat,
      Real.cos (Real.pi * ((i : ℝ) + 0.5) * (k : ℝ) / (N : ℝ)) * (2 * Real.sin (Real.pi * k / N / 2))
        = Real.sin (((i + 1 : Nat) : ℝ) * (Real.pi * k / N)) - Real.sin ((i : ℝ) * (Real.pi * k / N)) := by
    intro i
    have e1 : ((i + 1 : Nat) : ℝ) * (Real.pi * k / N)
        = Real.pi * ((i : ℝ) + 0.5) * (k : ℝ) / (N : ℝ) + Real.pi * k / N / 2 := by
      rw [h05]; push_cast; ring
    have e2 : (i : ℝ) * (Real.pi * k / N)
        = Real.pi * ((i : ℝ) + 0.5) * (k : ℝ) / (N : ℝ) - Real.pi * k / N / 2 := by
      rw [h05]; ring
    rw [e1, e2, Real.sin_add, Real.sin_sub]
    ring
  have htel : (∑ i in Finset.range N, Real.cos (Real.pi * ((i : ℝ) + 0.5) * (k : ℝ) / (N : ℝ)))
      * (2 * Real.sin (Real.pi * k / N / 2)) = 0 := by
    rw [Finset.sum_mul]
    simp_rw [hterm]
    rw [Finset.sum_range_sub (fun i : Nat => Real.sin ((i : ℝ) * (Real.pi * k / N)))]
    have e3 : (N : ℝ) * (Real.pi * k / N) = k * Real.pi := by
      field_simp
      ring
    rw [e3, Real.sin_nat_mul_pi]
    simp
  rcases mul_eq_zero.mp htel with h | h
  · exact h
  · exfalso
    rcases mul_eq_zero.mp h with h2 | h2
    · norm_num at h2
    · exact hsin h2

theorem coef_real_shift (n : Nat) (f : Nat → ℝ) (c : ℝ) (k : Nat) (hk : 0 < k) (hkn : k < n) :
    coef Real.cos Real.sqrt Real.pi n (fun i => f i + c) k
      = coef Real.cos Real.sqrt Real.pi n f k := by
  unfold coef
  congr 1
  simp only [add_mul, Finset.sum_add_distrib]
  rw [← Finset.mul_sum, sum_cos_eq_zero n k hk hkn]
  simp

theorem coef_real_shift_zero (n : Nat) (f : Nat → ℝ) (c : ℝ) :
    coef Real.cos Real.sqrt Real.pi n (fun i => f i + c) 0
      = coef Real.cos Real.sqrt Real.pi n f 0 + c * n * Real.sqrt (1 / (n : ℝ)) := by
  rw [coef_real_zero, coef_real_zero, Finset.sum_add_distrib]
  simp
  ring

end RealDCT

theorem fill_from_origin {β : Type} (W : Nat) (g : Int → β) (z : β) (k : Nat) (hk : k ≤ W) :
    ((List.range k).map fun j : Nat => (0 : Int) + (j : Int)).foldlM
        (fun row x => setIdx row x (g x)) ((List.range W).map fun _ => z)
      = some ((List.range W).map fun j : Nat => if j < k then g (j : Int) else z) := by
  induction k with
  | zero => simp
  | succ k ih =>
    rw [List.range_succ, List.map_append, List.foldlM_append, ih (by omega)]
    simp only [Option.bind_eq_bind, Option.some_bind, List.map_cons, List.map_nil,
      List.foldlM_cons, List.foldlM_nil, setIdx, List.length_map, List.length_range]
    have hc : (0 : Int) ≤ 0 + (k : Int) ∧ (0 : Int) + (k : Int) < (W : Int) := by omega
    rw [if_pos hc]
    simp only [Option.some_bind, Option.pure_def, zero_add, Int.toNat_ofNat]
    rw [list_set_range]
    congr 1
    apply List.map_congr_left
    intro j _
    by_cases h1 : j = k
    · subst h1; simp
    · by_cases h2 : j < k
      · simp [h1, h2, Nat.lt_succ_of_lt h2]
      · have : ¬ j < k + 1 := by omega
        simp [h1, h2, this]

theorem fill_all_from_origin {β : Type} (W : Nat) (g : Int → β) (z : β) :
    ((List.range W).map fun j : Nat => (0 : Int) + (j : Int)).foldlM
        (fun row x => setIdx row x (g x)) (List.replicate W z)
      = some ((List.range W).map fun j : Nat => g (j : Int)) := by
  have e : List.replicate W z = (List.range W).map fun _ => z := by simp
  rw [e, fill_from_origin W g z W le_rfl]
  congr 1
  apply List.map_congr_left
  intro j hj
  simp [List.mem_range.mp hj]

section Gray
variable {α : Type} [LinearOrderedField α]

theorem grayRow_origin (img : Image) (y : Int) (h0 : img.bounds.minX = 0)
    (hW : 0 ≤ img.bounds.maxX) :
    (grayRow img y : Option (List α))
      = some ((List.range img.bounds.maxX.toNat).map fun x : Nat => luma (img.At (x : Int) y)) := by
  unfold grayRow make loopRange Rectangle.Dx
  rw [h0, sub_zero, if_pos hW]
  simp only [Option.bind_eq_bind, Option.some_bind]
  exact fill_all_from_origin img.bounds.maxX.toNat (fun x => luma (img.At x y)) (0 : α)

/-- For bounds anchored at the origin `imageToGrayMatrix` returns the `H x W`
matrix of lumas. -/
theorem imageToGrayMatrix_origin (img : Image) (hx : img.bounds.minX = 0)
    (hy : img.bounds.minY = 0) (hW : 0 ≤ img.bounds.maxX) (hH : 0 ≤ img.bounds.maxY) :
    (imageToGrayMatrix img : Option (List (List α)))
      = some ((List.range img.bounds.maxY.toNat).map fun y : Nat =>
          (List.range img.bounds.maxX.toNat).map fun x : Nat => luma (img.At (x : Int) (y : Int))) := by
  unfold imageToGrayMatrix make loopRange Rectangle.Dy
  rw [hy, sub_zero, if_pos hH]
  simp only [Option.bind_eq_bind, Option.some_bind, grayRow_origin img _ hx hW]
  exact fill_all_from_origin img.bounds.maxY.toNat
    (fun y => (List.range img.bounds.maxX.toNat).map fun x : Nat => luma (img.At (x : Int) y))
    ([] : List α)

theorem imageToGrayMatrix_black :
    (imageToGrayMatrix blackImage : Option (List (List α)))
      = some (List.replicate 32 (List.replicate 32 (0 : α))) := by
  rw [imageToGrayMatrix_origin blackImage rfl rfl (by decide) (by decide)]
  have hl : ∀ x y : Int, (luma (blackImage.At x y) : α) = 0 := by
    intro x y
    simp [blackImage, luma]
  simp only [hl]
  show some (List.map (fun _ => List.map (fun _ => (0 : α)) (List.range 32)) (List.range 32)) = _
  rw [List.map_const', List.map_const', List.length_range]

theorem hashLoop_none_above (mean : α) (vs : List α) (i : Nat)
    (h : ∀ v ∈ vs, ¬ v > mean) : hashLoop mean i vs 0 = 0 := by
  induction vs generalizing i with
  | nil => rfl
  | cons v vs ih =>
    unfold hashLoop
    rw [if_neg (h v (List.mem_cons_self _ _))]
    exact ih (i + 1) (fun w hw => h w (List.mem_cons_of_mem _ hw))

theorem entry_zero (N y x : Nat) :
    entry (List.replicate N (List.replicate N (0 : α))) y x = 0 := by
  simp only [entry, List.getD_eq_getElem?_getD, List.getElem?_replicate]
  by_cases hy : y < N
  · by_cases hx : x < N
    · simp [hy, hx]
    · simp [hy, hx]
  · simp [hy]

theorem lowFreqSpec_zero (N : Nat) :
    lowFreqSpec (List.replicate N (List.replicate N (0 : α))) = List.replicate 63 (0 : α) := by
  unfold lowFreqSpec
  rw [List.eq_replicate_iff]
  refine ⟨by rw [List.length_map]; decide, ?_⟩
  intro b hb
  rw [List.mem_map] at hb
  obtain ⟨p, _, rfl⟩ := hb
  exact entry_zero N p.1 p.2

theorem hashOfDCT_zero (N : Nat) (hN : 8 ≤ N) :
    hashOfDCT (List.replicate N (List.replicate N (0 : α))) = some 0 := by
  have hsq : IsSquare N (List.replicate N (List.replicate N (0 : α))) := by
    constructor
    · simp
    · intro row hrow
      rw [List.eq_of_mem_replicate hrow]
      simp
  rw [hashOfDCT_spec _ (hasBlock8_of_isSquare N hN _ hsq), lowFreqSpec_zero]
  congr 1
  apply hashLoop_none_above
  intro v hv
  rw [List.eq_of_mem_replicate hv]
  simp

theorem computePHash_black (cos sqrt : α → α) (pi : α) :
    ComputePHash cos sqrt pi blackImaging blackImage = some 0 := by
  have h1 : (imageToGrayMatrix (blackImaging.Grayscale (blackImaging.Resize32 blackImage)) :
      Option (List (List α))) = some (List.replicate 32 (List.replicate 32 (0 : α))) :=
    imageToGrayMatrix_black
  unfold ComputePHash
  dsimp only
  rw [h1, Option.bind_eq_bind, Option.some_bind, applyDCT_zero, Option.some_bind]
  exact hashOfDCT_zero 32 (by norm_num)

end Gray

section Claims
variable {α : Type}

theorem entry_replicate [Zero α] (N : Nat) (v : α) (y x : Nat) (hy : y < N) (hx : x < N) :
    entry (List.replicate N (List.replicate N v)) y x = v := by
  simp [entry, List.getD_eq_getElem?_getD, List.getElem?_replicate, hy, hx]

theorem lowFreqSpec_replicate [Zero α] (N : Nat) (hN : 8 ≤ N) (v : α) :
    lowFreqSpec (List.replicate N (List.replicate N v)) = List.replicate 63 v := by
  unfold lowFreqSpec
  rw [List.eq_replicate_iff]
  refine ⟨by rw [List.length_map]; decide, ?_⟩
  intro b hb
  rw [List.mem_map] at hb
  obtain ⟨p, hp, rfl⟩ := hb
  simp only [lowFreqPositions, List.mem_filter, List.mem_flatMap, List.mem_map,
    List.mem_range] at hp
  obtain ⟨⟨r, hr, c, hc, rfl⟩, -⟩ := hp
  exact entry_replicate N v r c (by omega) (by omega)

theorem F64.lt_irrefl (x : F64) : ¬ x < x := by
  show ¬ (F64.lt x x = true)
  cases x with
  | finite neg m e => simp [F64.lt]
  | inf neg => cases neg <;> simp [F64.lt]
  | nan => simp [F64.lt]

theorem hasBlock8_tenthBlock : HasBlock8 tenthBlock := by
  refine hasBlock8_of_isSquare 8 le_rfl tenthBlock ⟨by simp [tenthBlock], ?_⟩
  intro row hrow
  rw [List.eq_of_mem_replicate hrow]
  simp

/-- C1 (amended): over any carrier, for a DCT matrix with at least an 8x8 top-left
block the hash assembly of `ComputePHash` returns a hash `h` whose bit `63 - i`, for
every `i < 63`, is set exactly when `value[i] > mean`, where `value` is the row-major list
of the 63 coefficients of the block with `(0,0)` skipped and `mean` is what
`calculateMean` returns for it: the sum accumulated from 0 in index order, divided by
the converted count 63, in the arithmetic of the carrier.  The comparison is strict:
where `x > x` never holds, a coefficient equal to that mean leaves its bit 0. -/
theorem hashOfDCT_bit_iff [Zero α] [Add α] [Div α] [NatCast α] [LT α]
    [DecidableRel (fun a b : α => a < b)] (m : List (List α)) (h8 : HasBlock8 m) :
    ∃ h, hashOfDCT m = some h ∧ (lowFreqSpec m).length = 63 ∧
      calculateMean (lowFreqSpec m)
        = (lowFreqSpec m).foldl (fun sum v => sum + v) 0 / ((63 : Nat) : α) ∧
      ∀ i, i < 63 →
        (h.testBit (63 - i) = true
            ↔ (lowFreqSpec m).getD i 0 > calculateMean (lowFreqSpec m)) ∧
        ((∀ x : α, ¬ x < x) → (lowFreqSpec m).getD i 0 = calculateMean (lowFreqSpec m)
            → h.testBit (63 - i) = false) := by
  refine ⟨_, hashOfDCT_eq m h8, lowFreqSpec_length m, ?_, ?_⟩
  · unfold calculateMean
    rw [lowFreqSpec_length]
  · intro i hi
    rw [hashLoop_bit m _ i hi]
    constructor
    · simp
    · intro hirr heq
      rw [heq]
      simpa using hirr _

/-- Instance of C1 at the float64 matrix `tenthBlock`. -/
theorem hashOfDCT_bit_iff_witness :
    HasBlock8 tenthBlock ∧
    ∃ h, hashOfDCT tenthBlock = some h ∧ (lowFreqSpec tenthBlock).length = 63 ∧
      calculateMean (lowFreqSpec tenthBlock)
        = (lowFreqSpec tenthBlock).foldl (fun sum v => sum + v) 0 / ((63 : Nat) : F64) ∧
      ∀ i, i < 63 →
        (h.testBit (63 - i) = true
            ↔ (lowFreqSpec tenthBlock).getD i 0 > calculateMean (lowFreqSpec tenthBlock)) ∧
        ((∀ x : F64, ¬ x < x)
            → (lowFreqSpec tenthBlock).getD i 0 = calculateMean (lowFreqSpec tenthBlock)
            → h.testBit (63 - i) = false) :=
  ⟨hasBlock8_tenthBlock, hashOfDCT_bit_iff tenthBlock hasBlock8_tenthBlock⟩

set_option maxRecDepth 100000 in
theorem calculateMean_tenth :
    calculateMean (List.replicate 63 tenth) = F64.finite false 7205759403792786 (-56) := by
  decide

set_option maxRecDepth 100000 in
theorem hashLoop_tenth :
    hashLoop (F64.finite false 7205759403792786 (-56)) 0 (List.replicate 63 tenth) 0
      = 0xfffffffffffffffe := by
  decide

theorem hashOfDCT_tenthBlock : hashOfDCT tenthBlock = some 0xfffffffffffffffe := by
  have hl : lowFreqSpec tenthBlock = List.replicate 63 tenth :=
    lowFreqSpec_replicate 8 le_rfl tenth
  rw [hashOfDCT_eq tenthBlock hasBlock8_tenthBlock, hl, calculateMean_tenth, hashLoop_tenth]

/-- Known values of the binary64 model: the literals `0.1`, `0.2` and `1/3`, the sum
`0.1 + 0.2 = 0.30000000000000004`, ties to even at `2^53 + 1` and `2^53 + 3`, and the
conversion of 63. -/
theorem F64.known_values :
    F64.round false 1 10 = F64.finite false 7205759403792794 (-56) ∧
    F64.round false 2 10 = F64.finite false 7205759403792794 (-55) ∧
    F64.round false 1 3 = F64.finite false 6004799503160661 (-54) ∧
    F64.round false 1 10 + F64.round false 2 10 = F64.finite false 5404319552844596 (-54) ∧
    ((2 ^ 53 + 1 : Nat) : F64) = F64.finite false 4503599627370496 1 ∧
    ((2 ^ 53 + 3 : Nat) : F64) = F64.finite false 4503599627370498 1 ∧
    ((63 : Nat) : F64) = F64.finite false 8866461766385664 (-47) := by
  decide

/-- C1 with `mean` taken as the exact arithmetic mean of the 63 values fails on
float64.  On the 8x8 block with every entry `0.1` the float64 mean that `calculateMean`
returns is `7205759403792786 * 2^-56`, below `0.1 = 7205759403792794 * 2^-56`, and the
hash is `0xfffffffffffffffe`: every bit `63 - i` is set, although no coefficient is
above the arithmetic mean of the 63 coefficients, which is `0.1` itself. -/
theorem hashOfDCT_float_mean_counterexample :
    hashOfDCT tenthBlock = some 0xfffffffffffffffe ∧
    calculateMean (lowFreqSpec tenthBlock) = F64.finite false 7205759403792786 (-56) ∧
    ∀ i, i < 63 →
      Nat.testBit 0xfffffffffffffffe (63 - i) = true ∧
      ¬ (F64.toRat ((lowFreqSpec tenthBlock).getD i 0)
          > ((lowFreqSpec tenthBlock).map F64.toRat).sum / 63) := by
  have hl : lowFreqSpec tenthBlock = List.replicate 63 tenth :=
    lowFreqSpec_replicate 8 le_rfl tenth
  refine ⟨hashOfDCT_tenthBlock, ?_, ?_⟩
  · rw [hl]
    exact calculateMean_tenth
  · intro i hi
    constructor
    · have hb : ∀ j, j < 63 → Nat.testBit 0xfffffffffffffffe (63 - j) = true := by decide
      exact hb i hi
    · rw [hl, List.map_replicate, List.sum_replicate, List.getD_eq_getElem?_getD,
        List.getElem?_replicate, if_pos hi, Option.getD_some]
      have e : (63 • F64.toRat tenth) / 63 = F64.toRat tenth := by
        rw [nsmul_eq_mul]
        field_simp
      rw [e]
      exact lt_irrefl _

/-- In exact arithmetic (an ordered field) the mean of C1 is the arithmetic mean: bit
`63 - i` is set exactly when `value[i]` exceeds the sum of the 63 values divided by 63. -/
theorem hashOfDCT_bit_iff_exact [LinearOrderedField α] (m : List (List α))
    (h8 : HasBlock8 m) :
    ∃ h, hashOfDCT m = some h ∧ (lowFreqSpec m).length = 63 ∧
      ∀ i, i < 63 →
        (h.testBit (63 - i) = true
            ↔ (lowFreqSpec m).getD i 0 > (lowFreqSpec m).sum / 63) ∧
        ((lowFreqSpec m).getD i 0 = (lowFreqSpec m).sum / 63
            → h.testBit (63 - i) = false) := by
  refine ⟨_, hashOfDCT_spec m h8, lowFreqSpec_length m, ?_⟩
  intro i hi
  rw [hashOfDCT_testBit m i hi]
  constructor
  · simp
  · intro heq
    rw [heq]
    simp

/-- C2: over any carrier, whenever `ComputePHash` returns a hash, its least-significant
bit (bit 0) is 0, and the value fits 64 bits. -/
theorem ComputePHash_bit0 [Zero α] [Add α] [Mul α] [Div α] [NatCast α] [OfScientific α] [LT α]
    [DecidableRel (fun a b : α => a < b)] (cos sqrt : α → α) (pi : α) (im : Imaging)
    (img : Image) (h : Nat) (hh : ComputePHash cos sqrt pi im img = some h) :
    h.testBit 0 = false ∧ h % 2 = 0 ∧ h < 2 ^ 64 := by
  unfold ComputePHash at hh
  dsimp only at hh
  cases hg : (imageToGrayMatrix (im.Grayscale (im.Resize32 img)) : Option (List (List α))) with
  | none => rw [hg] at hh; simp at hh
  | some g =>
    rw [hg] at hh
    simp only [Option.bind_eq_bind, Option.some_bind] at hh
    cases hd : applyDCT cos sqrt pi g with
    | none => rw [hd] at hh; simp at hh
    | some d =>
      rw [hd] at hh
      simp only [Option.bind_eq_bind, Option.some_bind] at hh
      obtain ⟨h1, h2⟩ := hashOfDCT_bit0 d h hh
      refine ⟨h1, ?_, h2⟩
      have := Nat.testBit_zero h
      rw [h1] at this
      simpa using this.symm

/-- Instance of C2 at the all-black 32x32 image, over the rationals. -/
theorem ComputePHash_bit0_witness :
    ComputePHash (fun x : ℚ => x) (fun x : ℚ => x) 3 blackImaging blackImage = some 0 ∧
    (Nat.testBit 0 0 = false ∧ 0 % 2 = 0 ∧ 0 < 2 ^ 64) :=
  ⟨computePHash_black _ _ _,
   ComputePHash_bit0 (fun x : ℚ => x) (fun x : ℚ => x) 3 blackImaging blackImage 0
     (computePHash_black _ _ _)⟩

/-- C5: on the 32x32 luma matrix of zeros `applyDCT` returns the 32x32 matrix of
zeros, the mean of the 63 low-frequency coefficients collected from it is 0, and the
assembled hash is 0. -/
theorem applyDCT_black [LinearOrderedField α] (cos sqrt : α → α) (pi : α) :
    applyDCT cos sqrt pi (List.replicate 32 (List.replicate 32 (0 : α)))
        = some (List.replicate 32 (List.replicate 32 (0 : α))) ∧
    (collectLowFreq (List.replicate 32 (List.replicate 32 (0 : α)))).map calculateMean
        = some 0 ∧
    (applyDCT cos sqrt pi (List.replicate 32 (List.replicate 32 (0 : α)))).bind hashOfDCT
        = some 0 := by
  have hsq : IsSquare 32 (List.replicate 32 (List.replicate 32 (0 : α))) := by
    constructor
    · simp
    · intro row hrow
      rw [List.eq_of_mem_replicate hrow]
      simp
  refine ⟨applyDCT_zero cos sqrt pi 32, ?_, ?_⟩
  · rw [collectLowFreq_eq _ (hasBlock8_of_isSquare 32 (by norm_num) _ hsq), lowFreqSpec_zero,
      Option.map_some', calculateMean_eq]
    simp
  · rw [applyDCT_zero, Option.some_bind]
    exact hashOfDCT_zero 32 (by norm_num)

end Claims

section RealClaims

/-- C3: for an `N x N` real matrix with `N ≥ 1`, entry `[0][0]` of the result of
`applyDCT` is `sqrt(1/N) * sqrt(1/N)` times the sum of all entries of the input. -/
theorem applyDCT_dc_term (N : Nat) (hN : 1 ≤ N) (m : List (List ℝ)) (hm : IsSquare N m) :
    ∃ d, applyDCT Real.cos Real.sqrt Real.pi m = some d ∧
      (d[0]?).bind (fun row => row[0]?)
        = some (Real.sqrt (1 / (N : ℝ)) * Real.sqrt (1 / (N : ℝ)) * (m.map List.sum).sum) := by
  have key : ∀ F : Nat → Nat → ℝ,
      ∃ d, applyDCT Real.cos Real.sqrt Real.pi (matOf N F) = some d ∧
        (d[0]?).bind (fun row => row[0]?)
          = some (Real.sqrt (1 / (N : ℝ)) * Real.sqrt (1 / (N : ℝ))
              * ((matOf N F).map List.sum).sum) := by
    intro F
    refine ⟨_, applyDCT_matOf _ _ _ N F, ?_⟩
    have h0 : 0 < N := hN
    have e1 : ((matOf N F).map List.sum).sum
        = ∑ y in Finset.range N, ∑ x in Finset.range N, F y x := by
      unfold matOf
      rw [List.map_map, sum_map_range]
      apply Finset.sum_congr rfl
      intro y _
      exact sum_map_range (F y) N
    rw [e1]
    simp only [matOf, List.getElem?_map, List.getElem?_range h0, Option.map_some',
      Option.some_bind, coef_real_zero, Option.some.injEq]
    rw [← Finset.sum_mul]
    ring
  rw [hm.eq_matOf]
  exact key _

/-- Instance of C3 at a 2x2 matrix. -/
theorem applyDCT_dc_term_witness :
    ∃ d, applyDCT Real.cos Real.sqrt Real.pi [[1, 2], [3, 4]] = some d ∧
      (d[0]?).bind (fun row => row[0]?)
        = some (Real.sqrt (1 / ((2 : Nat) : ℝ)) * Real.sqrt (1 / ((2 : Nat) : ℝ))
            * (([[1, 2], [3, 4]] : List (List ℝ)).map List.sum).sum) :=
  applyDCT_dc_term 2 (by norm_num) [[1, 2], [3, 4]] ⟨rfl, by simp⟩

/-- C4: on an `N x N` matrix `applyDCT` returns a matrix of `N` rows with `N` entries
each, and on the 1x1 matrix `[[v]]` it returns `[[v]]`. -/
theorem applyDCT_dims :
    (∀ (N : Nat) (m : List (List ℝ)), IsSquare N m →
      ∃ d, applyDCT Real.cos Real.sqrt Real.pi m = some d ∧ IsSquare N d) ∧
    ∀ v : ℝ, applyDCT Real.cos Real.sqrt Real.pi [[v]] = some [[v]] := by
  constructor
  · intro N m hm
    rw [hm.eq_matOf]
    exact ⟨_, applyDCT_matOf _ _ _ N _, isSquare_matOf N _⟩
  · intro v
    have e : ([[v]] : List (List ℝ)) = matOf 1 (fun _ _ => v) := by simp [matOf]
    rw [e, applyDCT_matOf]
    have r1 : List.range 1 = [0] := rfl
    simp [matOf, r1, coef_real_zero]

/-- Instance of C4 at a 2x2 matrix. -/
theorem applyDCT_dims_witness :
    ∃ d, applyDCT Real.cos Real.sqrt Real.pi [[1, 2], [3, 4]] = some d ∧ IsSquare 2 d :=
  applyDCT_dims.1 2 [[1, 2], [3, 4]] ⟨rfl, by simp⟩

end RealClaims

section Mean
variable {α : Type} [LinearOrderedField α]

theorem sum_le_length_mul (l : List α) (M : α) (h : ∀ x ∈ l, x ≤ M) :
    l.sum ≤ (l.length : α) * M := by
  induction l with
  | nil => simp
  | cons x l ih =>
    have h1 := h x (List.mem_cons_self _ _)
    have h2 := ih (fun y hy => h y (List.mem_cons_of_mem _ hy))
    rw [List.sum_cons, List.length_cons]
    push_cast
    linarith

theorem sum_lt_length_mul (l : List α) (M : α) (h : ∀ x ∈ l, x ≤ M) (hex : ∃ x ∈ l, x < M) :
    l.sum < (l.length : α) * M := by
  induction l with
  | nil => obtain ⟨x, hx, _⟩ := hex; simp at hx
  | cons x l ih =>
    have h1 := h x (List.mem_cons_self _ _)
    have hl : ∀ y ∈ l, y ≤ M := fun y hy => h y (List.mem_cons_of_mem _ hy)
    rw [List.sum_cons, List.length_cons]
    push_cast
    obtain ⟨a, ha, haM⟩ := hex
    rcases List.mem_cons.mp ha with rfl | ha2
    · have := sum_le_length_mul l M hl
      linarith
    · have := ih hl ⟨a, ha2, haM⟩
      linarith

/-- A list with two different members has a member strictly above its mean. -/
theorem exists_gt_mean (l : List α) (a b : α) (ha : a ∈ l) (hb : b ∈ l) (hab : a < b) :
    ∃ i, i < l.length ∧ l.getD i 0 > l.sum / (l.length : α) := by
  by_contra hno
  push_neg at hno
  have hpos : 0 < l.length := List.length_pos_of_mem ha
  have hposα : (0 : α) < (l.length : α) := by exact_mod_cast hpos
  have hall : ∀ x ∈ l, x ≤ l.sum / (l.length : α) := by
    intro x hx
    obtain ⟨i, hi, rfl⟩ := List.getElem_of_mem hx
    have := hno i hi
    rwa [List.getD_eq_getElem?_getD, List.getElem?_eq_getElem hi, Option.getD_some] at this
  have hlt := sum_lt_length_mul l _ hall ⟨a, ha, lt_of_lt_of_le hab (hall b hb)⟩
  rw [mul_div_cancel₀ _ (ne_of_gt hposα)] at hlt
  exact lt_irrefl _ hlt

theorem coef_single (cos sqrt : α → α) (pi : α) (n : Nat) (hn : 0 < n) (a : α) (k : Nat) :
    coef cos sqrt pi n (fun i => if i = 0 then a else 0) k
      = a * cos (pi * ((0 : Nat) + 0.5) * (k : α) / (n : α))
          * (if k = 0 then sqrt (1.0 / (n : α)) else sqrt (2.0 / (n : α))) := by
  unfold coef
  congr 1
  rw [Finset.sum_eq_single 0]
  · simp
  · intro i _ hi
    simp [hi]
  · intro h
    exact absurd (Finset.mem_range.mpr hn) h

theorem brightPixel_dct (cos sqrt : α → α) (pi : α) :
    applyDCT cos sqrt pi (brightPixel : List (List α))
      = some (matOf 32 fun y x =>
          (255 * cos (pi * ((0 : Nat) + 0.5) * (x : α) / ((32 : Nat) : α))
              * (if x = 0 then sqrt (1.0 / ((32 : Nat) : α)) else sqrt (2.0 / ((32 : Nat) : α))))
            * cos (pi * ((0 : Nat) + 0.5) * (y : α) / ((32 : Nat) : α))
            * (if y = 0 then sqrt (1.0 / ((32 : Nat) : α)) else sqrt (2.0 / ((32 : Nat) : α)))) := by
  unfold brightPixel
  rw [applyDCT_matOf]
  congr 1
  apply matOf_congr
  intro y _ x _
  have inner : ∀ i : Nat,
      coef cos sqrt pi 32 (fun j => if i = 0 ∧ j = 0 then (255 : α) else 0) x
        = if i = 0 then
            255 * cos (pi * ((0 : Nat) + 0.5) * (x : α) / ((32 : Nat) : α))
              * (if x = 0 then sqrt (1.0 / ((32 : Nat) : α)) else sqrt (2.0 / ((32 : Nat) : α)))
          else 0 := by
    intro i
    by_cases hi : i = 0
    · subst hi
      simp only [true_and, if_true]
      exact coef_single cos sqrt pi 32 (by norm_num) 255 x
    · simp only [hi, false_and, if_false]
      exact coef_zero_fun cos sqrt pi 32 x
  simp only [inner]
  exact coef_single cos sqrt pi 32 (by norm_num) _ y

end Mean

section RealClaims2

theorem cos_pi_64_gt : 1 < Real.cos (Real.pi / 64) * Real.sqrt 2 := by
  have h1 : Real.cos (Real.pi / 4) < Real.cos (Real.pi / 64) := by
    apply Real.cos_lt_cos_of_nonneg_of_le_pi
    · have := Real.pi_pos; positivity
    · have := Real.pi_pos; linarith
    · have := Real.pi_pos; linarith
  rw [Real.cos_pi_div_four] at h1
  have h2 : (0 : ℝ) < Real.sqrt 2 := Real.sqrt_pos.mpr (by norm_num)
  have h3 : Real.sqrt 2 * Real.sqrt 2 = 2 := Real.mul_self_sqrt (by norm_num)
  nlinarith

/-- C7: for the 32x32 luma matrix that is zero except `luma[0][0] = 255`, `applyDCT`
followed by the hash assembly returns a hash different from 0. -/
theorem brightPixel_hash_ne_zero :
    ∃ h, (applyDCT Real.cos Real.sqrt Real.pi (brightPixel : List (List ℝ))).bind hashOfDCT
        = some h ∧ h ≠ 0 := by
  rw [brightPixel_dct, Option.some_bind]
  set d : List (List ℝ) := matOf 32 fun y x =>
      (255 * Real.cos (Real.pi * ((0 : Nat) + 0.5) * (x : ℝ) / ((32 : Nat) : ℝ))
          * (if x = 0 then Real.sqrt (1.0 / ((32 : Nat) : ℝ)) else Real.sqrt (2.0 / ((32 : Nat) : ℝ))))
        * Real.cos (Real.pi * ((0 : Nat) + 0.5) * (y : ℝ) / ((32 : Nat) : ℝ))
        * (if y = 0 then Real.sqrt (1.0 / ((32 : Nat) : ℝ)) else Real.sqrt (2.0 / ((32 : Nat) : ℝ)))
    with hd
  have h8 : HasBlock8 d := hasBlock8_of_isSquare 32 (by norm_num) d (isSquare_matOf 32 _)
  refine ⟨_, hashOfDCT_spec d h8, ?_⟩
  have hc : Real.pi * (((0 : Nat) : ℝ) + 0.5) * ((1 : Nat) : ℝ) / ((32 : Nat) : ℝ) = Real.pi / 64 := by
    push_cast; norm_num; ring
  have hc0 : Real.pi * (((0 : Nat) : ℝ) + 0.5) * ((0 : Nat) : ℝ) / ((32 : Nat) : ℝ) = 0 := by
    push_cast; ring
  have hs1 : Real.sqrt (1.0 / ((32 : Nat) : ℝ)) > 0 := Real.sqrt_pos.mpr (by norm_num)
  have hs2 : Real.sqrt (2.0 / ((32 : Nat) : ℝ)) = Real.sqrt 2 * Real.sqrt (1.0 / ((32 : Nat) : ℝ)) := by
    rw [← Real.sqrt_mul (by norm_num)]
    congr 1
    norm_num
  have hcpos : 0 < Real.cos (Real.pi / 64) := by
    apply Real.cos_pos_of_mem_Ioo
    constructor
    · have := Real.pi_pos; linarith
    · have := Real.pi_pos; linarith
  have e01 : entry d 0 1 = 255 * Real.cos (Real.pi / 64) * (Real.sqrt 2 * Real.sqrt (1.0 / ((32 : Nat) : ℝ)))
      * 1 * Real.sqrt (1.0 / ((32 : Nat) : ℝ)) := by
    rw [hd, entry_matOf 32 _ 0 1 (by norm_num) (by norm_num)]
    simp only [one_ne_zero, if_false, if_true, hc, hc0, Real.cos_zero, hs2]
  have e11 : entry d 1 1 = 255 * Real.cos (Real.pi / 64) * (Real.sqrt 2 * Real.sqrt (1.0 / ((32 : Nat) : ℝ)))
      * Real.cos (Real.pi / 64) * (Real.sqrt 2 * Real.sqrt (1.0 / ((32 : Nat) : ℝ))) := by
    rw [hd, entry_matOf 32 _ 1 1 (by norm_num) (by norm_num)]
    simp only [one_ne_zero, if_false, hc, hs2]
  have hlt : entry d 0 1 < entry d 1 1 := by
    rw [e01, e11]
    have hk := cos_pi_64_gt
    have h2 : (0 : ℝ) < Real.sqrt 2 := Real.sqrt_pos.mpr (by norm_num)
    have hA : 0 < 255 * Real.cos (Real.pi / 64) * (Real.sqrt 2 * Real.sqrt (1.0 / ((32 : Nat) : ℝ))) := by
      positivity
    have hB : 1 * Real.sqrt (1.0 / ((32 : Nat) : ℝ))
        < Real.cos (Real.pi / 64) * (Real.sqrt 2 * Real.sqrt (1.0 / ((32 : Nat) : ℝ))) := by
      nlinarith
    calc 255 * Real.cos (Real.pi / 64) * (Real.sqrt 2 * Real.sqrt (1.0 / ((32 : Nat) : ℝ))) * 1
            * Real.sqrt (1.0 / ((32 : Nat) : ℝ))
          = 255 * Real.cos (Real.pi / 64) * (Real.sqrt 2 * Real.sqrt (1.0 / ((32 : Nat) : ℝ)))
            * (1 * Real.sqrt (1.0 / ((32 : Nat) : ℝ))) := by ring
      _ < 255 * Real.cos (Real.pi / 64) * (Real.sqrt 2 * Real.sqrt (1.0 / ((32 : Nat) : ℝ)))
            * (Real.cos (Real.pi / 64) * (Real.sqrt 2 * Real.sqrt (1.0 / ((32 : Nat) : ℝ)))) :=
          mul_lt_mul_of_pos_left hB hA
      _ = _ := by ring
  have hm01 : entry d 0 1 ∈ lowFreqSpec d :=
    List.mem_map.mpr ⟨(0, 1), by decide, rfl⟩
  have hm11 : entry d 1 1 ∈ lowFreqSpec d :=
    List.mem_map.mpr ⟨(1, 1), by decide, rfl⟩
  obtain ⟨i, hi, hgt⟩ := exists_gt_mean (lowFreqSpec d) _ _ hm01 hm11 hlt
  rw [lowFreqSpec_length] at hi hgt
  have hbit := hashOfDCT_testBit d i hi
  have h63 : (((63 : Nat) : ℝ)) = 63 := by norm_num
  rw [h63] at hgt
  rw [decide_eq_true hgt] at hbit
  intro hzero
  rw [hzero] at hbit
  simp at hbit

theorem coef_coef_shift (N : Nat) (F : Nat → Nat → ℝ) (c : ℝ) (y x : Nat) (hy : y < N)
    (hx : x < N) (hyx : ¬ (y = 0 ∧ x = 0)) :
    coef Real.cos Real.sqrt Real.pi N
        (fun i => coef Real.cos Real.sqrt Real.pi N (fun j => F i j + c) x) y
      = coef Real.cos Real.sqrt Real.pi N
        (fun i => coef Real.cos Real.sqrt Real.pi N (F i) x) y := by
  by_cases hx0 : x = 0
  · subst hx0
    have hy0 : 0 < y := by
      rcases Nat.eq_zero_or_pos y with h | h
      · exact absurd ⟨h, rfl⟩ hyx
      · exact h
    simp only [coef_real_shift_zero]
    exact coef_real_shift N _ _ y hy0 hy
  · have hx1 : 0 < x := Nat.pos_of_ne_zero hx0
    simp only [coef_real_shift N _ c x hx1 hx]

theorem entry_dct_shift (N : Nat) (F : Nat → Nat → ℝ) (c : ℝ) (y x : Nat) (hy : y < N)
    (hx : x < N) (hyx : ¬ (y = 0 ∧ x = 0)) :
    entry (matOf N fun y x => coef Real.cos Real.sqrt Real.pi N
        (fun i => coef Real.cos Real.sqrt Real.pi N (fun j => F i j + c) x) y) y x
      = entry (matOf N fun y x => coef Real.cos Real.sqrt Real.pi N
        (fun i => coef Real.cos Real.sqrt Real.pi N (F i) x) y) y x := by
  rw [entry_matOf N _ y x hy hx, entry_matOf N _ y x hy hx]
  exact coef_coef_shift N F c y x hy hx hyx

theorem map_add_matOf (N : Nat) (F : Nat → Nat → ℝ) (c : ℝ) :
    ((matOf N F).map fun row => row.map fun v => v + c) = matOf N (fun y x => F y x + c) := by
  simp [matOf, List.map_map, Function.comp_def]

/-- In exact real arithmetic, for an `N x N` matrix with `N ≥ 8`, adding a constant
`c` to every entry leaves every coefficient of `applyDCT` other than `[0][0]` unchanged,
and the assembled hash is the same.  (An idealisation: under `float64` rounding the
AC coefficients of the two matrices differ by rounding residue, which this statement
does not cover.) -/
theorem applyDCT_shift_exact (N : Nat) (hN : 8 ≤ N) (m : List (List ℝ))
    (hm : IsSquare N m) (c : ℝ) :
    ∃ d d2 h, applyDCT Real.cos Real.sqrt Real.pi m = some d ∧
      applyDCT Real.cos Real.sqrt Real.pi (m.map fun row => row.map fun v => v + c) = some d2 ∧
      IsSquare N d ∧ IsSquare N d2 ∧
      (∀ y x, y < N → x < N → ¬ (y = 0 ∧ x = 0) → entry d2 y x = entry d y x) ∧
      hashOfDCT d = some h ∧ hashOfDCT d2 = some h := by
  have key : ∀ F : Nat → Nat → ℝ,
      ∃ d d2 h, applyDCT Real.cos Real.sqrt Real.pi (matOf N F) = some d ∧
        applyDCT Real.cos Real.sqrt Real.pi ((matOf N F).map fun row => row.map fun v => v + c)
          = some d2 ∧
        IsSquare N d ∧ IsSquare N d2 ∧
        (∀ y x, y < N → x < N → ¬ (y = 0 ∧ x = 0) → entry d2 y x = entry d y x) ∧
        hashOfDCT d = some h ∧ hashOfDCT d2 = some h := by
    intro F
    refine ⟨_, _, _, applyDCT_matOf _ _ _ N F, ?_, isSquare_matOf N _, isSquare_matOf N _,
      entry_dct_shift N F c,
      hashOfDCT_spec _ (hasBlock8_of_isSquare N hN _ (isSquare_matOf N _)), ?_⟩
    · rw [map_add_matOf, applyDCT_matOf]
    · rw [hashOfDCT_spec _ (hasBlock8_of_isSquare N hN _ (isSquare_matOf N _)),
        lowFreqSpec_congr _ _
          (fun y x hy hx hyx => entry_dct_shift N F c y x (by omega) (by omega) hyx)]
  rw [hm.eq_matOf]
  exact key _

end RealClaims2

section Rendering
variable {α : Type} [LinearOrderedField α]

/-- C8: `imageToGrayMatrix` on the 1x1 image with bounds `(1,0)-(2,1)` stores `row[1]`
into a row of length 1, an index out of range: no matrix is returned. -/
theorem imageToGrayMatrix_offset_panics :
    (imageToGrayMatrix offsetImage : Option (List (List α))) = none := by
  have r1 : List.range 1 = [0] := rfl
  simp [imageToGrayMatrix, grayRow, make, setIdx, loopRange, offsetImage, Rectangle.Dx,
    Rectangle.Dy, r1]

/-- C9: for the all-black image `ComputePHash` returns the hash 0 and `phash` returns
the one-character string `0`, which is not the 16-digit `%016x` rendering of 0. -/
theorem phash_black_unpadded (cos sqrt : α → α) (pi : α) (imgCont : List Nat) :
    ComputePHash cos sqrt pi blackImaging blackImage = some 0 ∧
    phash cos sqrt pi blackImaging imgCont = some ['0'] ∧
    fmt016x 0 = ['0', '0', '0', '0', '0', '0', '0', '0', '0', '0', '0', '0', '0', '0', '0', '0'] ∧
    formatInt16 (toInt64 0) ≠ fmt016x 0 := by
  refine ⟨computePHash_black cos sqrt pi, ?_, by decide, by decide⟩
  have hd : blackImaging.Decode imgCont = some blackImage := rfl
  have hf : formatInt16 (toInt64 0) = ['0'] := by decide
  unfold phash
  rw [hd, Option.bind_eq_bind, Option.some_bind, computePHash_black, Option.bind_eq_bind,
    Option.some_bind, hf]
  rfl

/-- A hash with bit 63 set is returned by `phash` with a minus sign: `int64` of
`2^63` is negative. -/
theorem formatInt16_high_bit :
    formatInt16 (toInt64 (2 ^ 63))
      = ['-', '8', '0', '0', '0', '0', '0', '0', '0', '0', '0', '0', '0', '0', '0', '0', '0'] ∧
    fmt016x (2 ^ 63)
      = ['8', '0', '0', '0', '0', '0', '0', '0', '0', '0', '0', '0', '0', '0', '0', '0'] := by
  constructor <;> decide

end Rendering

section Uniform

/-- In exact real arithmetic every uniform 32x32 luma matrix hashes to 0: its DCT
has no AC energy at all.  (Under `float64` rounding the AC coefficients are rounding
residue instead of exact zeros, which this statement does not cover.) -/
theorem uniform_hash_exact (v : ℝ) :
    (applyDCT Real.cos Real.sqrt Real.pi (List.replicate 32 (List.replicate 32 v))).bind
        hashOfDCT = some 0 := by
  have e : List.replicate 32 (List.replicate 32 v) = matOf 32 (fun _ _ => (0 : ℝ) + v) := by
    simp [matOf]
  have e0 : (matOf 32 fun y x => coef Real.cos Real.sqrt Real.pi 32
        (fun i => coef Real.cos Real.sqrt Real.pi 32 (fun _ => (0 : ℝ)) x) y)
      = List.replicate 32 (List.replicate 32 (0 : ℝ)) := by
    simp [matOf, coef_zero_fun]
  rw [e, applyDCT_matOf, Option.some_bind,
    hashOfDCT_spec _ (hasBlock8_of_isSquare 32 (by norm_num) _ (isSquare_matOf 32 _)),
    lowFreqSpec_congr _ _
      (fun y x hy hx hyx =>
        entry_dct_shift 32 (fun _ _ => 0) v y x (by omega) (by omega) hyx),
    ← hashOfDCT_spec _ (hasBlock8_of_isSquare 32 (by norm_num) _ (isSquare_matOf 32 _)),
    e0]
  exact hashOfDCT_zero 32 (by norm_num)

end Uniform

end PHash
